import Mathlib

/-!
Verification development for the goraph automatic-differentiation library.

The embedding models the Go sources shallowly:
* `float64` is idealized as `ℚ` (exact field arithmetic); transcendental
  functions (`math.Log`) are abstracted as an explicit function parameter.
* a Go `panic` (fatal error) is modeled as `none` in `Option`-returning
  functions; element reads `xs[i]` are modeled with `List.getElem?` so that
  an index-out-of-range panic in a loop body surfaces as `none` via `collect`.
* Go `int` indices and dimensions are modeled as `ℕ` (all claims quantify
  over non-negative indices); `for i := range n` over a non-positive bound
  runs zero iterations, matching truncated subtraction on `ℕ`.
* pointer mutation is modeled by returning the updated value.
-/

namespace Goraph

/-- Sequences a list of optional element computations, as a Go loop body that
may panic at any element: `none` as soon as one element computation panics. -/
def collect : List (Option ℚ) → Option (List ℚ)
  | [] => some []
  | o :: rest =>
    match o with
    | none => none
    | some a => (collect rest).map (a :: ·)

/-- Matrix from matrix.go: a dense row-major buffer with its dimensions. -/
structure Matrix where
  Data : List ℚ
  Rows : ℕ
  Cols : ℕ
deriving DecidableEq

/-- The documented matrix invariant: `len(Data) == Rows*Cols`. -/
def WF (m : Matrix) : Prop := m.Data.length = m.Rows * m.Cols

instance (m : Matrix) : Decidable (WF m) := by unfold WF; infer_instance

/-- Total element accessor used in specification statements (0 past the end). -/
def Matrix.dAt (m : Matrix) (i : ℕ) : ℚ := (m.Data[i]?).getD 0

/-- NewMatrix: panics when the data length does not match the dimensions. -/
def NewMatrix (rows cols : ℕ) (data : List ℚ) : Option Matrix :=
  if data.length ≠ rows * cols then none else some ⟨data, rows, cols⟩

/-- NewConstMatrix: a rows×cols matrix filled with one value; never panics. -/
def NewConstMatrix (rows cols : ℕ) (value : ℚ) : Matrix :=
  ⟨List.replicate (rows * cols) value, rows, cols⟩

/-- Matrix.Add: shape check, then element-wise sum over the flat buffers. -/
def Matrix.Add (m other : Matrix) : Option Matrix :=
  if m.Rows ≠ other.Rows ∨ m.Cols ≠ other.Cols then none
  else
    collect ((List.range (m.Rows * m.Cols)).map fun i => do
      let a ← m.Data[i]?
      let b ← other.Data[i]?
      pure (a + b)) >>= NewMatrix m.Rows m.Cols

/-- Matrix.Sub: shape check, then element-wise difference. -/
def Matrix.Sub (m other : Matrix) : Option Matrix :=
  if m.Rows ≠ other.Rows ∨ m.Cols ≠ other.Cols then none
  else
    collect ((List.range (m.Rows * m.Cols)).map fun i => do
      let a ← m.Data[i]?
      let b ← other.Data[i]?
      pure (a - b)) >>= NewMatrix m.Rows m.Cols

/-- Matrix.Multi: matrix product; checks `m.Cols == other.Rows` and
accumulates `data[r1*oc+c2] += m[r1,c1]*other[c1,c2]` over `c1`. -/
def Matrix.Multi (m other : Matrix) : Option Matrix :=
  if m.Cols ≠ other.Rows then none
  else
    collect ((List.range (m.Rows * other.Cols)).map fun k =>
      (List.range m.Cols).foldl (fun acc c1 => do
        let s ← acc
        let a ← m.Data[(k / other.Cols) * m.Cols + c1]?
        let b ← other.Data[c1 * other.Cols + k % other.Cols]?
        pure (s + a * b)) (some 0)) >>= NewMatrix m.Rows other.Cols

/-- Matrix.Negate: element-wise negation. -/
def Matrix.Negate (m : Matrix) : Option Matrix :=
  collect ((List.range (m.Rows * m.Cols)).map fun i =>
    (m.Data[i]?).map fun a => -a) >>= NewMatrix m.Rows m.Cols

/-- Matrix.Trans: writes `data[j*Rows+i] = m.Data[i*Cols+j]`; enumerating the
write index `k = j*Rows+i` gives `i = k % Rows`, `j = k / Rows`. -/
def Matrix.Trans (m : Matrix) : Option Matrix :=
  collect ((List.range (m.Rows * m.Cols)).map fun k =>
    m.Data[(k % m.Rows) * m.Cols + k / m.Rows]?) >>= NewMatrix m.Cols m.Rows

/-- Matrix.Scale: element-wise multiplication by a scalar rate. -/
def Matrix.Scale (m : Matrix) (rate : ℚ) : Option Matrix :=
  collect ((List.range (m.Rows * m.Cols)).map fun i =>
    (m.Data[i]?).map fun a => a * rate) >>= NewMatrix m.Rows m.Cols

/-- Matrix.HConcat: requires equal row counts; interleaves the two row blocks
row by row. -/
def Matrix.HConcat (m other : Matrix) : Option Matrix :=
  if m.Rows ≠ other.Rows then none
  else
    collect ((List.range m.Rows).flatMap fun i =>
      ((List.range m.Cols).map fun j => m.Data[i * m.Cols + j]?) ++
      ((List.range other.Cols).map fun j => other.Data[i * other.Cols + j]?)) >>=
    NewMatrix m.Rows (m.Cols + other.Cols)

/-- Matrix.VConcat: requires equal column counts; stacks the two buffers. -/
def Matrix.VConcat (m other : Matrix) : Option Matrix :=
  if m.Cols ≠ other.Cols then none
  else NewMatrix (m.Rows + other.Rows) m.Cols (m.Data ++ other.Data)

/-- Matrix.RowSlice: three guard panics from the source, then a copy of the
rows `start..stop-1`. -/
def Matrix.RowSlice (m : Matrix) (start stop : ℕ) : Option Matrix :=
  if start > stop then none
  else if start ≥ m.Rows then none
  else if stop > m.Rows then none
  else
    collect ((List.range ((stop - start) * m.Cols)).map fun i =>
      m.Data[i + m.Cols * start]?) >>= NewMatrix (stop - start) m.Cols

/-- Matrix.ColSlice from src/unnamed/part_006: the first guard is
`if start < end { panic }` (note the inverted comparison relative to
RowSlice); the final guard models Go's `make` panicking on a negative
length `m.Rows*(end-start)` when `end < start`. -/
def Matrix.ColSlice (m : Matrix) (start stop : ℕ) : Option Matrix :=
  if start < stop then none
  else if start ≥ m.Cols then none
  else if stop > m.Cols then none
  else if stop < start then none
  else
    collect ((List.range m.Rows).flatMap fun i =>
      (List.range (stop - start)).map fun j => m.Data[i * m.Cols + start + j]?) >>=
    NewMatrix m.Rows (stop - start)

/-- Matrix.MultiElement from src/unnamed/part_006: note that the source
performs no shape check at all; it multiplies the flat buffers over the
receiver's `Rows*Cols` index range. -/
def Matrix.MultiElement (m other : Matrix) : Option Matrix :=
  collect ((List.range (m.Rows * m.Cols)).map fun i => do
    let a ← m.Data[i]?
    let b ← other.Data[i]?
    pure (a * b)) >>= NewMatrix m.Rows m.Cols

/-! ### The node graph (node.go)

The embedding covers the leaf Variable and a representative set of operation
variants (the binary arithmetic core, unary structural ops and the two loss
nodes); each non-leaf constructor carries its memoization cache (`Value`,
`nil` ↦ `none`).  The Go graph is a DAG of pointers mutated in place; the
embedding threads the updated (sub)tree through return values. -/

structure VariableNode where
  Value : Matrix
  Gradient : Matrix
deriving DecidableEq

/-- VariableNode.Backward: adds the incoming gradient into the accumulator
(`v.Gradient = v.Gradient.Add(grad)`) — never overwrites. -/
def VariableNode.Backward (v : VariableNode) (grad : Matrix) : Option VariableNode :=
  (v.Gradient.Add grad).map fun g => ⟨v.Value, g⟩

/-- VariableNode.Reset: replaces the gradient with a zero matrix of the
Value's shape. -/
def VariableNode.Reset (v : VariableNode) : VariableNode :=
  ⟨v.Value, NewConstMatrix v.Value.Rows v.Value.Cols 0⟩

/-- Iterated `Backward` with the gradients `gs`, in order. -/
def VariableNode.backwardN : VariableNode → List Matrix → Option VariableNode
  | v, [] => some v
  | v, g :: gs => (v.Backward g).bind fun v1 => v1.backwardN gs

inductive Node where
  | variableNode (v : VariableNode)
  | add (x y : Node) (value : Option Matrix)
  | sub (x y : Node) (value : Option Matrix)
  | multi (x y : Node) (value : Option Matrix)
  | multiElement (x y : Node) (value : Option Matrix)
  | scale (x : Node) (rate : ℚ) (value : Option Matrix)
  | trans (x : Node) (value : Option Matrix)
  | mseLoss (x y : Node) (value : Option Matrix)
  | crossEntropyLoss (x y : Node) (value : Option Matrix)
deriving DecidableEq

/-- A fresh input Variable holding `m` (as built by `NewVariable`: the
gradient accumulator starts as a zero matrix of the same shape). -/
def varOf (m : Matrix) : Node :=
  .variableNode ⟨m, NewConstMatrix m.Rows m.Cols 0⟩

/-- MSELossNode.Forward body: shape check, per-row sum of squared
differences divided by `Cols`, accumulated and finally divided by `Rows`. -/
def mseForwardValue (x y : Matrix) : Option Matrix :=
  if x.Rows ≠ y.Rows ∨ x.Cols ≠ y.Cols then none
  else
    (collect ((List.range x.Rows).map fun i =>
      (collect ((List.range x.Cols).map fun j => do
        let a ← x.Data[i * x.Cols + j]?
        let b ← y.Data[i * x.Cols + j]?
        pure ((a - b) ^ 2))).map fun terms => terms.sum / (x.Cols : ℚ))).bind
    fun rowLosses => NewMatrix 1 1 [rowLosses.sum / (x.Rows : ℚ)]

/-- CrossEntropyLossNode.Forward body: sums `-log x` at the one-hot
positions of the target and divides by `Rows`; `lg` abstracts `math.Log`. -/
def ceForwardValue (lg : ℚ → ℚ) (x y : Matrix) : Option Matrix :=
  (collect ((List.range y.Data.length).map fun i => do
    let vy ← y.Data[i]?
    if vy = 1 then do
      let vx ← x.Data[i]?
      pure (-lg vx)
    else pure (0 : ℚ))).bind
  fun terms => NewMatrix 1 1 [terms.sum / (x.Rows : ℚ)]

/-- Forward: returns the cache when populated, otherwise forces the
children, applies the variant-specific compute function and stores the
result.  The third component instruments the number of compute-function
invocations (0 on a cache hit), as the spec's observable call counter. -/
def forward (lg : ℚ → ℚ) : Node → Option (Matrix × Node × ℕ)
  | .variableNode v => some (v.Value, .variableNode v, 0)
  | .add x y (some v) => some (v, .add x y (some v), 0)
  | .add x y none => do
      let (vx, x1, kx) ← forward lg x
      let (vy, y1, ky) ← forward lg y
      let v ← vx.Add vy
      pure (v, .add x1 y1 (some v), kx + ky + 1)
  | .sub x y (some v) => some (v, .sub x y (some v), 0)
  | .sub x y none => do
      let (vx, x1, kx) ← forward lg x
      let (vy, y1, ky) ← forward lg y
      let v ← vx.Sub vy
      pure (v, .sub x1 y1 (some v), kx + ky + 1)
  | .multi x y (some v) => some (v, .multi x y (some v), 0)
  | .multi x y none => do
      let (vx, x1, kx) ← forward lg x
      let (vy, y1, ky) ← forward lg y
      let v ← vx.Multi vy
      pure (v, .multi x1 y1 (some v), kx + ky + 1)
  | .multiElement x y (some v) => some (v, .multiElement x y (some v), 0)
  | .multiElement x y none => do
      let (vx, x1, kx) ← forward lg x
      let (vy, y1, ky) ← forward lg y
      let v ← vx.MultiElement vy
      pure (v, .multiElement x1 y1 (some v), kx + ky + 1)
  | .scale x rate (some v) => some (v, .scale x rate (some v), 0)
  | .scale x rate none => do
      let (vx, x1, kx) ← forward lg x
      let v ← vx.Scale rate
      pure (v, .scale x1 rate (some v), kx + 1)
  | .trans x (some v) => some (v, .trans x (some v), 0)
  | .trans x none => do
      let (vx, x1, kx) ← forward lg x
      let v ← vx.Trans
      pure (v, .trans x1 (some v), kx + 1)
  | .mseLoss x y (some v) => some (v, .mseLoss x y (some v), 0)
  | .mseLoss x y none => do
      let (vx, x1, kx) ← forward lg x
      let (vy, y1, ky) ← forward lg y
      let v ← mseForwardValue vx vy
      pure (v, .mseLoss x1 y1 (some v), kx + ky + 1)
  | .crossEntropyLoss x y (some v) => some (v, .crossEntropyLoss x y (some v), 0)
  | .crossEntropyLoss x y none => do
      let (vx, x1, kx) ← forward lg x
      let (vy, y1, ky) ← forward lg y
      let v ← ceForwardValue lg vx vy
      pure (v, .crossEntropyLoss x1 y1 (some v), kx + ky + 1)

/-- The value `Forward()` returns (cache if populated, else the recursive
computation), without threading the cache updates — used to model the
`Forward()` calls that `Backward` makes internally to read its operands. -/
def forwardVal (lg : ℚ → ℚ) : Node → Option Matrix
  | .variableNode v => some v.Value
  | .add _ _ (some v) => some v
  | .add x y none => do
      let vx ← forwardVal lg x
      let vy ← forwardVal lg y
      vx.Add vy
  | .sub _ _ (some v) => some v
  | .sub x y none => do
      let vx ← forwardVal lg x
      let vy ← forwardVal lg y
      vx.Sub vy
  | .multi _ _ (some v) => some v
  | .multi x y none => do
      let vx ← forwardVal lg x
      let vy ← forwardVal lg y
      vx.Multi vy
  | .multiElement _ _ (some v) => some v
  | .multiElement x y none => do
      let vx ← forwardVal lg x
      let vy ← forwardVal lg y
      vx.MultiElement vy
  | .scale _ _ (some v) => some v
  | .scale x rate none => do
      let vx ← forwardVal lg x
      vx.Scale rate
  | .trans _ (some v) => some v
  | .trans x none => do
      let vx ← forwardVal lg x
      vx.Trans
  | .mseLoss _ _ (some v) => some v
  | .mseLoss x y none => do
      let vx ← forwardVal lg x
      let vy ← forwardVal lg y
      mseForwardValue vx vy
  | .crossEntropyLoss _ _ (some v) => some v
  | .crossEntropyLoss x y none => do
      let vx ← forwardVal lg x
      let vy ← forwardVal lg y
      ceForwardValue lg vx vy

/-- Backward: given the upstream grad, propagates to the children via the chain
rule.  A `nil` upstream gradient (`none`) is only legal on the two loss
nodes — every other variant dereferences it (`grad.Negate()`,
`grad.Data`, `Gradient.Add(grad)` …), a fatal nil-pointer error in Go.  The
loss variants check `grad != nil` *first* and panic before any forward read
or child `Backward` call. -/
def backward (lg : ℚ → ℚ) : Node → Option Matrix → Option Node
  | .variableNode v, some g => (v.Backward g).map .variableNode
  | .variableNode _, none => none
  | .add x y val, grad => do
      let x1 ← backward lg x grad
      let y1 ← backward lg y grad
      pure (.add x1 y1 val)
  | .sub x y val, some g => do
      let x1 ← backward lg x (some g)
      let gneg ← g.Negate
      let y1 ← backward lg y (some gneg)
      pure (.sub x1 y1 val)
  | .sub _ _ _, none => none
  | .multi x y val, some g => do
      let vx ← forwardVal lg x
      let vy ← forwardVal lg y
      let ty ← vy.Trans
      let gx ← g.Multi ty
      let x1 ← backward lg x (some gx)
      let tx ← vx.Trans
      let gy ← tx.Multi g
      let y1 ← backward lg y (some gy)
      pure (.multi x1 y1 val)
  | .multi _ _ _, none => none
  | .multiElement x y val, some g => do
      let vx ← forwardVal lg x
      let vy ← forwardVal lg y
      if vx.Rows * vx.Cols < g.Data.length ∨ vy.Rows * vy.Cols < g.Data.length then
        none
      else do
        let px ← collect ((List.range g.Data.length).map fun i => do
            let b ← vy.Data[i]?
            let gi ← g.Data[i]?
            pure (b * gi))
        let py ← collect ((List.range g.Data.length).map fun i => do
            let a ← vx.Data[i]?
            let gi ← g.Data[i]?
            pure (a * gi))
        let x1 ← backward lg x
          (some ⟨px ++ List.replicate (vx.Rows * vx.Cols - g.Data.length) 0, vx.Rows, vx.Cols⟩)
        let y1 ← backward lg y
          (some ⟨py ++ List.replicate (vy.Rows * vy.Cols - g.Data.length) 0, vy.Rows, vy.Cols⟩)
        pure (.multiElement x1 y1 val)
  | .multiElement _ _ _, none => none
  | .scale x rate val, some g => do
      let gx ← g.Scale rate
      let x1 ← backward lg x (some gx)
      pure (.scale x1 rate val)
  | .scale _ _ _, none => none
  | .trans x val, some g => do
      let gx ← g.Trans
      let x1 ← backward lg x (some gx)
      pure (.trans x1 val)
  | .trans _ _, none => none
  | .mseLoss _ _ _, some _ => none
  | .mseLoss x y val, none => do
      let vx ← forwardVal lg x
      let vy ← forwardVal lg y
      let d ← collect ((List.range (vx.Rows * vx.Cols)).map fun i => do
          let a ← vx.Data[i]?
          let b ← vy.Data[i]?
          pure ((a - b) / (vx.Cols : ℚ)))
      let gx ← NewMatrix vx.Rows vx.Cols d
      let gy ← (NewConstMatrix vx.Rows vx.Cols 0).Sub gx
      let x1 ← backward lg x (some gx)
      let y1 ← backward lg y (some gy)
      pure (.mseLoss x1 y1 val)
  | .crossEntropyLoss _ _ _, some _ => none
  | .crossEntropyLoss x y val, none => do
      let vx ← forwardVal lg x
      let vy ← forwardVal lg y
      let dX ← collect ((List.range (vx.Rows * vx.Cols)).map fun i => do
          let b ← vy.Data[i]?
          let a ← vx.Data[i]?
          pure (if b = 1 then (if a = 0 then -1 / (0.001 : ℚ) else -1 / a)
                else (if 1 - a = 0 then 1 / (0.001 : ℚ) else 1 / (1 - a))))
      let gx ← NewMatrix vx.Rows vx.Cols dX
      let gy := NewConstMatrix vy.Rows vy.Cols 0
      let x1 ← backward lg x (some gx)
      let y1 ← backward lg y (some gy)
      pure (.crossEntropyLoss x1 y1 val)

/-- Reset: clears this node's cache and recurses into the children only
when the cache is currently populated; a Variable leaf zeroes its gradient
accumulator. -/
def Node.Reset : Node → Node
  | .variableNode v => .variableNode v.Reset
  | .add x y (some _) => .add x.Reset y.Reset none
  | .add x y none => .add x y none
  | .sub x y (some _) => .sub x.Reset y.Reset none
  | .sub x y none => .sub x y none
  | .multi x y (some _) => .multi x.Reset y.Reset none
  | .multi x y none => .multi x y none
  | .multiElement x y (some _) => .multiElement x.Reset y.Reset none
  | .multiElement x y none => .multiElement x y none
  | .scale x rate (some _) => .scale x.Reset rate none
  | .scale x rate none => .scale x rate none
  | .trans x (some _) => .trans x.Reset none
  | .trans x none => .trans x none
  | .mseLoss x y (some _) => .mseLoss x.Reset y.Reset none
  | .mseLoss x y none => .mseLoss x y none
  | .crossEntropyLoss x y (some _) => .crossEntropyLoss x.Reset y.Reset none
  | .crossEntropyLoss x y none => .crossEntropyLoss x y none

/-- The flat sum of squared differences `Σ (x_ij − y_ij)²` used to state the
MSE claim. -/
def sqDiffSum (x y : Matrix) : ℚ :=
  ((List.range (x.Rows * x.Cols)).map fun i => (x.dAt i - y.dAt i) ^ 2).sum

/-- The 1×1 matrix holding the mean squared error `(1/(rows·cols))·Σ(x−y)²`. -/
def mseMean (x y : Matrix) : Matrix :=
  ⟨[1 / ((x.Rows : ℚ) * (x.Cols : ℚ)) * sqDiffSum x y], 1, 1⟩

/-! ### SGD optimizer (optimizer.go) -/

structure SGDOptimizer where
  LearningRate : ℚ
  Momentum : ℚ
  Velocity : List Matrix
  Parameters : List VariableNode
deriving DecidableEq

/-- One iteration of the `Step` loop body for parameter `p` with velocity
`vel`: `grad = Gradient.Scale(1/batchSize)`;
`velocity = velocity.Scale(momentum).Add(grad.Scale(1-momentum))`;
`value = value.Sub(velocity.Scale(lr))`.  Returns the updated parameter
(gradient untouched) and the updated velocity. -/
def sgdStepOne (lr mom : ℚ) (batchSize : ℕ) (p : VariableNode) (vel : Matrix) :
    Option (VariableNode × Matrix) := do
  let grad ← p.Gradient.Scale (1 / (batchSize : ℚ))
  let sv ← vel.Scale mom
  let sg ← grad.Scale (1 - mom)
  let v1 ← sv.Add sg
  let lv ← v1.Scale lr
  let newVal ← p.Value.Sub lv
  pure (⟨newVal, p.Gradient⟩, v1)

/-- The `for i, p := range opt.Parameters` loop: indexing `Velocity[i]`
beyond its length is a fatal error. -/
def sgdStepList (lr mom : ℚ) (b : ℕ) :
    List VariableNode → List Matrix → Option (List (VariableNode × Matrix))
  | [], _ => some []
  | _ :: _, [] => none
  | p :: ps, vel :: vels => do
      let pv ← sgdStepOne lr mom b p vel
      let rest ← sgdStepList lr mom b ps vels
      pure (pv :: rest)

/-- SGDOptimizer.Step: runs the update loop over the parameter list in
order. -/
def SGDOptimizer.Step (opt : SGDOptimizer) (batchSize : ℕ) : Option SGDOptimizer :=
  (sgdStepList opt.LearningRate opt.Momentum batchSize opt.Parameters opt.Velocity).map
    fun pairs =>
      ⟨opt.LearningRate, opt.Momentum,
        pairs.map Prod.snd ++ opt.Velocity.drop opt.Parameters.length,
        pairs.map Prod.fst⟩

/-- Default elements for stating indexed properties via `List.getD`. -/
def dummyM : Matrix := ⟨[], 0, 0⟩

def dummyV : VariableNode := ⟨dummyM, dummyM⟩

/-! ### Helper lemmas about `collect` and element access -/

theorem collect_all_some (l : List (Option ℚ)) (h : ∀ o ∈ l, o.isSome) :
    collect l = some (l.map fun o => o.getD 0) := by
  induction l with
  | nil => rfl
  | cons o t ih =>
    have ho := h o (List.mem_cons_self o t)
    cases o with
    | none => simp at ho
    | some a =>
      simp only [collect, List.map_cons, Option.getD_some]
      rw [ih fun x hx => h x (List.mem_cons_of_mem _ hx)]
      rfl

theorem collect_map_range (f : ℕ → Option ℚ) (n : ℕ) (h : ∀ i < n, (f i).isSome) :
    collect ((List.range n).map f) = some ((List.range n).map fun i => (f i).getD 0) := by
  rw [collect_all_some]
  · rw [List.map_map]; rfl
  · intro o ho
    obtain ⟨i, hi, rfl⟩ := List.mem_map.mp ho
    exact h i (List.mem_range.mp hi)

theorem dAt_data_getElem (m : Matrix) {i : ℕ} (h : i < m.Data.length) :
    m.Data[i]? = some (m.dAt i) := by
  rw [Matrix.dAt, List.getElem?_eq_getElem h]; rfl

theorem dAt_map_range (f : ℕ → ℚ) (n r c : ℕ) {p : ℕ} (h : p < n) :
    (Matrix.mk ((List.range n).map f) r c).dAt p = f p := by
  have hl : p < ((List.range n).map f).length := by simpa using h
  rw [Matrix.dAt, List.getElem?_eq_getElem hl]
  simp

theorem wf_of_newMatrix {r c : ℕ} {d : List ℚ} {fm : Matrix}
    (h : NewMatrix r c d = some fm) : WF fm := by
  unfold NewMatrix at h
  split at h
  · exact absurd h (by simp)
  · cases h
    next hne => simpa [WF] using not_ne_iff.mp hne

theorem wf_of_bind_newMatrix {o : Option (List ℚ)} {r c : ℕ} {fm : Matrix}
    (h : (o >>= NewMatrix r c) = some fm) : WF fm := by
  cases o with
  | none => exact absurd h (by simp)
  | some l => exact wf_of_newMatrix (by simpa using h)

theorem newMatrix_of_length {r c : ℕ} {d : List ℚ} (h : d.length = r * c) :
    NewMatrix r c d = some ⟨d, r, c⟩ := by
  unfold NewMatrix
  rw [if_neg (not_ne_iff.mpr h)]

/-! ### Exact-result lemmas for the element-wise operations on well-formed
matrices -/

theorem Add_ok (m o : Matrix) (hm : WF m) (ho : WF o)
    (hr : m.Rows = o.Rows) (hc : m.Cols = o.Cols) :
    m.Add o =
      some ⟨(List.range (m.Rows * m.Cols)).map (fun i => m.dAt i + o.dAt i),
        m.Rows, m.Cols⟩ := by
  have hml : m.Data.length = m.Rows * m.Cols := hm
  have hlo : o.Data.length = m.Rows * m.Cols := by rw [ho, ← hr, ← hc]
  unfold Matrix.Add
  rw [if_neg (by simp [hr, hc])]
  rw [collect_map_range _ _ (fun i hi => by
    rw [dAt_data_getElem m (by omega), dAt_data_getElem o (by omega)]; rfl)]
  rw [List.map_congr_left (fun i hi => by
    have hi' := List.mem_range.mp hi
    rw [dAt_data_getElem m (by omega), dAt_data_getElem o (by omega)])]
  exact newMatrix_of_length (by simp)

theorem Sub_ok (m o : Matrix) (hm : WF m) (ho : WF o)
    (hr : m.Rows = o.Rows) (hc : m.Cols = o.Cols) :
    m.Sub o =
      some ⟨(List.range (m.Rows * m.Cols)).map (fun i => m.dAt i - o.dAt i),
        m.Rows, m.Cols⟩ := by
  have hml : m.Data.length = m.Rows * m.Cols := hm
  have hlo : o.Data.length = m.Rows * m.Cols := by rw [ho, ← hr, ← hc]
  unfold Matrix.Sub
  rw [if_neg (by simp [hr, hc])]
  rw [collect_map_range _ _ (fun i hi => by
    rw [dAt_data_getElem m (by omega), dAt_data_getElem o (by omega)]; rfl)]
  rw [List.map_congr_left (fun i hi => by
    have hi' := List.mem_range.mp hi
    rw [dAt_data_getElem m (by omega), dAt_data_getElem o (by omega)])]
  exact newMatrix_of_length (by simp)

theorem Scale_ok (m : Matrix) (rate : ℚ) (hm : WF m) :
    m.Scale rate =
      some ⟨(List.range (m.Rows * m.Cols)).map (fun i => m.dAt i * rate),
        m.Rows, m.Cols⟩ := by
  have hml : m.Data.length = m.Rows * m.Cols := hm
  unfold Matrix.Scale
  rw [collect_map_range _ _ (fun i hi => by
    rw [dAt_data_getElem m (by omega)]; rfl)]
  rw [List.map_congr_left (fun i hi => by
    have hi' := List.mem_range.mp hi
    rw [dAt_data_getElem m (by omega)])]
  exact newMatrix_of_length (by simp)

/-- Claim C1: for `0 ≤ start < end ≤ extent` the slices must succeed, and
indices violating the range must be fatal.  The code refutes this:
`ColSlice`'s first guard is inverted (`if start < end { panic }`), so the
valid column range `0 ≤ 0 < 1 ≤ 2` on a 1×2 matrix is a fatal error, while
`start = end` (which violates `start < end`) succeeds on both slices,
returning an empty matrix. `RowSlice` does return the half-open row block on
valid input. -/
theorem colSlice_rejects_valid_range :
    Matrix.ColSlice ⟨[1, 2], 1, 2⟩ 0 1 = none
  ∧ Matrix.RowSlice ⟨[1, 2, 3, 4], 2, 2⟩ 0 1 = some ⟨[1, 2], 1, 2⟩
  ∧ Matrix.ColSlice ⟨[1, 2], 1, 2⟩ 1 1 = some ⟨[], 1, 0⟩
  ∧ Matrix.RowSlice ⟨[1, 2, 3, 4], 2, 2⟩ 0 0 = some ⟨[], 0, 2⟩ :=
  ⟨rfl, rfl, rfl, rfl⟩

/-- Claim C2: every element-wise binary Matrix operation must fail fast on a
shape mismatch.  `Add` and `Sub` do, but `MultiElement` performs no shape
check at all: on a (2,3) and a (3,2) matrix it silently returns a 2×3
element-wise product of the flat buffers instead of failing. -/
theorem multiElement_missing_shape_check :
    Matrix.Add ⟨[1, 2, 3, 4, 5, 6], 2, 3⟩ ⟨[1, 2, 3, 4, 5, 6], 3, 2⟩ = none
  ∧ Matrix.Sub ⟨[1, 2, 3, 4, 5, 6], 2, 3⟩ ⟨[1, 2, 3, 4, 5, 6], 3, 2⟩ = none
  ∧ (Matrix.MultiElement ⟨[1, 2, 3, 4, 5, 6], 2, 3⟩ ⟨[1, 2, 3, 4, 5, 6], 3, 2⟩).map
      (fun mm => (mm.Rows, mm.Cols)) = some (2, 3) :=
  ⟨rfl, rfl, rfl⟩

/-- Claim C9: `len(Data) == Rows*Cols` always holds — a construction with a
mismatched data length is fatal, and every matrix any operation returns
satisfies the invariant again. -/
theorem matrix_ops_preserve_invariant :
    (∀ (r c : ℕ) (d : List ℚ) (fm : Matrix), NewMatrix r c d = some fm → WF fm)
  ∧ (∀ (r c : ℕ) (d : List ℚ), d.length ≠ r * c → NewMatrix r c d = none)
  ∧ (∀ a b fm : Matrix, a.Add b = some fm → WF fm)
  ∧ (∀ a b fm : Matrix, a.Sub b = some fm → WF fm)
  ∧ (∀ a b fm : Matrix, a.Multi b = some fm → WF fm)
  ∧ (∀ a fm : Matrix, a.Trans = some fm → WF fm)
  ∧ (∀ (a : Matrix) (rate : ℚ) (fm : Matrix), a.Scale rate = some fm → WF fm)
  ∧ (∀ a fm : Matrix, a.Negate = some fm → WF fm)
  ∧ (∀ a b fm : Matrix, a.HConcat b = some fm → WF fm)
  ∧ (∀ a b fm : Matrix, a.VConcat b = some fm → WF fm)
  ∧ (∀ a b fm : Matrix, a.MultiElement b = some fm → WF fm)
  ∧ (∀ (a : Matrix) (s e : ℕ) (fm : Matrix), a.RowSlice s e = some fm → WF fm)
  ∧ (∀ (a : Matrix) (s e : ℕ) (fm : Matrix), a.ColSlice s e = some fm → WF fm) := by
  refine ⟨fun r c d fm h => wf_of_newMatrix h,
    fun r c d h => by unfold NewMatrix; rw [if_pos h],
    ?_, ?_, ?_, ?_, ?_, ?_, ?_, ?_, ?_, ?_, ?_⟩
  · intro a b fm h
    unfold Matrix.Add at h
    split at h
    · exact absurd h (by simp)
    · exact wf_of_bind_newMatrix h
  · intro a b fm h
    unfold Matrix.Sub at h
    split at h
    · exact absurd h (by simp)
    · exact wf_of_bind_newMatrix h
  · intro a b fm h
    unfold Matrix.Multi at h
    split at h
    · exact absurd h (by simp)
    · exact wf_of_bind_newMatrix h
  · intro a fm h
    exact wf_of_bind_newMatrix h
  · intro a rate fm h
    exact wf_of_bind_newMatrix h
  · intro a fm h
    exact wf_of_bind_newMatrix h
  · intro a b fm h
    unfold Matrix.HConcat at h
    split at h
    · exact absurd h (by simp)
    · exact wf_of_bind_newMatrix h
  · intro a b fm h
    unfold Matrix.VConcat at h
    split at h
    · exact absurd h (by simp)
    · exact wf_of_newMatrix h
  · intro a b fm h
    exact wf_of_bind_newMatrix h
  · intro a s e fm h
    unfold Matrix.RowSlice at h
    split at h
    · exact absurd h (by simp)
    · split at h
      · exact absurd h (by simp)
      · split at h
        · exact absurd h (by simp)
        · exact wf_of_bind_newMatrix h
  · intro a s e fm h
    unfold Matrix.ColSlice at h
    split at h
    · exact absurd h (by simp)
    · split at h
      · exact absurd h (by simp)
      · split at h
        · exact absurd h (by simp)
        · split at h
          · exact absurd h (by simp)
          · exact wf_of_bind_newMatrix h

theorem dAt_of_length_le (m : Matrix) {p : ℕ} (h : m.Data.length ≤ p) :
    m.dAt p = 0 := by
  rw [Matrix.dAt, List.getElem?_eq_none h]; rfl

theorem dAt_map_range_ge (f : ℕ → ℚ) (n r c : ℕ) {p : ℕ} (h : n ≤ p) :
    (Matrix.mk ((List.range n).map f) r c).dAt p = 0 :=
  dAt_of_length_le _ (by simpa using h)

/-- Claim C5: `Reset()` clears the cache and recurses only into populated
subtrees, so a second consecutive `Reset()` is a no-op: once the cache is
empty the operation stops immediately, and re-zeroing a Variable leaf's
gradient reproduces the same zero matrix. -/
theorem reset_idempotent (n : Node) : n.Reset.Reset = n.Reset := by
  cases n with
  | variableNode v => rfl
  | add x y val => cases val <;> rfl
  | sub x y val => cases val <;> rfl
  | multi x y val => cases val <;> rfl
  | multiElement x y val => cases val <;> rfl
  | scale x rate val => cases val <;> rfl
  | trans x val => cases val <;> rfl
  | mseLoss x y val => cases val <;> rfl
  | crossEntropyLoss x y val => cases val <;> rfl

/-- Claim C4: after any successful `Forward()` the node's cache holds the
returned matrix, so an immediately repeated `Forward()` (no intervening
`Reset`) returns the identical matrix and the identical graph state and
invokes the variant compute function zero further times. -/
theorem forward_memoizes (lg : ℚ → ℚ) (n : Node) (v : Matrix) (n1 : Node) (k : ℕ)
    (h : forward lg n = some (v, n1, k)) : forward lg n1 = some (v, n1, 0) := by
  cases n with
  | variableNode p =>
    simp only [forward, Option.some.injEq, Prod.mk.injEq] at h
    obtain ⟨rfl, rfl, rfl⟩ := h
    rfl
  | add x y val =>
    cases val with
    | some w =>
      simp only [forward, Option.some.injEq, Prod.mk.injEq] at h
      obtain ⟨rfl, rfl, rfl⟩ := h
      rfl
    | none =>
      simp only [forward] at h
      cases hfx : forward lg x with
      | none => rw [hfx] at h; exact absurd h (by simp)
      | some px =>
        obtain ⟨vx, x1, kx⟩ := px
        rw [hfx] at h
        cases hfy : forward lg y with
        | none => rw [hfy] at h; exact absurd h (by simp)
        | some py =>
          obtain ⟨vy, y1, ky⟩ := py
          rw [hfy] at h
          simp only [Option.bind_eq_bind, Option.some_bind] at h
          cases hw : vx.Add vy with
          | none => rw [hw] at h; exact absurd h (by simp)
          | some w =>
            rw [hw] at h
            simp only [Option.bind_eq_bind, Option.some_bind, Option.pure_def,
              Option.some.injEq, Prod.mk.injEq] at h
            obtain ⟨rfl, rfl, rfl⟩ := h
            rfl
  | sub x y val =>
    cases val with
    | some w =>
      simp only [forward, Option.some.injEq, Prod.mk.injEq] at h
      obtain ⟨rfl, rfl, rfl⟩ := h
      rfl
    | none =>
      simp only [forward] at h
      cases hfx : forward lg x with
      | none => rw [hfx] at h; exact absurd h (by simp)
      | some px =>
        obtain ⟨vx, x1, kx⟩ := px
        rw [hfx] at h
        cases hfy : forward lg y with
        | none => rw [hfy] at h; exact absurd h (by simp)
        | some py =>
          obtain ⟨vy, y1, ky⟩ := py
          rw [hfy] at h
          simp only [Option.bind_eq_bind, Option.some_bind] at h
          cases hw : vx.Sub vy with
          | none => rw [hw] at h; exact absurd h (by simp)
          | some w =>
            rw [hw] at h
            simp only [Option.bind_eq_bind, Option.some_bind, Option.pure_def,
              Option.some.injEq, Prod.mk.injEq] at h
            obtain ⟨rfl, rfl, rfl⟩ := h
            rfl
  | multi x y val =>
    cases val with
    | some w =>
      simp only [forward, Option.some.injEq, Prod.mk.injEq] at h
      obtain ⟨rfl, rfl, rfl⟩ := h
      rfl
    | none =>
      simp only [forward] at h
      cases hfx : forward lg x with
      | none => rw [hfx] at h; exact absurd h (by simp)
      | some px =>
        obtain ⟨vx, x1, kx⟩ := px
        rw [hfx] at h
        cases hfy : forward lg y with
        | none => rw [hfy] at h; exact absurd h (by simp)
        | some py =>
          obtain ⟨vy, y1, ky⟩ := py
          rw [hfy] at h
          simp only [Option.bind_eq_bind, Option.some_bind] at h
          cases hw : vx.Multi vy with
          | none => rw [hw] at h; exact absurd h (by simp)
          | some w =>
            rw [hw] at h
            simp only [Option.bind_eq_bind, Option.some_bind, Option.pure_def,
              Option.some.injEq, Prod.mk.injEq] at h
            obtain ⟨rfl, rfl, rfl⟩ := h
            rfl
  | multiElement x y val =>
    cases val with
    | some w =>
      simp only [forward, Option.some.injEq, Prod.mk.injEq] at h
      obtain ⟨rfl, rfl, rfl⟩ := h
      rfl
    | none =>
      simp only [forward] at h
      cases hfx : forward lg x with
      | none => rw [hfx] at h; exact absurd h (by simp)
      | some px =>
        obtain ⟨vx, x1, kx⟩ := px
        rw [hfx] at h
        cases hfy : forward lg y with
        | none => rw [hfy] at h; exact absurd h (by simp)
        | some py =>
          obtain ⟨vy, y1, ky⟩ := py
          rw [hfy] at h
          simp only [Option.bind_eq_bind, Option.some_bind] at h
          cases hw : vx.MultiElement vy with
          | none => rw [hw] at h; exact absurd h (by simp)
          | some w =>
            rw [hw] at h
            simp only [Option.bind_eq_bind, Option.some_bind, Option.pure_def,
              Option.some.injEq, Prod.mk.injEq] at h
            obtain ⟨rfl, rfl, rfl⟩ := h
            rfl
  | scale x rate val =>
    cases val with
    | some w =>
      simp only [forward, Option.some.injEq, Prod.mk.injEq] at h
      obtain ⟨rfl, rfl, rfl⟩ := h
      rfl
    | none =>
      simp only [forward] at h
      cases hfx : forward lg x with
      | none => rw [hfx] at h; exact absurd h (by simp)
      | some px =>
        obtain ⟨vx, x1, kx⟩ := px
        rw [hfx] at h
        simp only [Option.bind_eq_bind, Option.some_bind] at h
        cases hw : vx.Scale rate with
        | none => rw [hw] at h; exact absurd h (by simp)
        | some w =>
          rw [hw] at h
          simp only [Option.bind_eq_bind, Option.some_bind, Option.pure_def,
            Option.some.injEq, Prod.mk.injEq] at h
          obtain ⟨rfl, rfl, rfl⟩ := h
          rfl
  | trans x val =>
    cases val with
    | some w =>
      simp only [forward, Option.some.injEq, Prod.mk.injEq] at h
      obtain ⟨rfl, rfl, rfl⟩ := h
      rfl
    | none =>
      simp only [forward] at h
      cases hfx : forward lg x with
      | none => rw [hfx] at h; exact absurd h (by simp)
      | some px =>
        obtain ⟨vx, x1, kx⟩ := px
        rw [hfx] at h
        simp only [Option.bind_eq_bind, Option.some_bind] at h
        cases hw : vx.Trans with
        | none => rw [hw] at h; exact absurd h (by simp)
        | some w =>
          rw [hw] at h
          simp only [Option.bind_eq_bind, Option.some_bind, Option.pure_def,
            Option.some.injEq, Prod.mk.injEq] at h
          obtain ⟨rfl, rfl, rfl⟩ := h
          rfl
  | mseLoss x y val =>
    cases val with
    | some w =>
      simp only [forward, Option.some.injEq, Prod.mk.injEq] at h
      obtain ⟨rfl, rfl, rfl⟩ := h
      rfl
    | none =>
      simp only [forward] at h
      cases hfx : forward lg x with
      | none => rw [hfx] at h; exact absurd h (by simp)
      | some px =>
        obtain ⟨vx, x1, kx⟩ := px
        rw [hfx] at h
        cases hfy : forward lg y with
        | none => rw [hfy] at h; exact absurd h (by simp)
        | some py =>
          obtain ⟨vy, y1, ky⟩ := py
          rw [hfy] at h
          simp only [Option.bind_eq_bind, Option.some_bind] at h
          cases hw : mseForwardValue vx vy with
          | none => rw [hw] at h; exact absurd h (by simp)
          | some w =>
            rw [hw] at h
            simp only [Option.bind_eq_bind, Option.some_bind, Option.pure_def,
              Option.some.injEq, Prod.mk.injEq] at h
            obtain ⟨rfl, rfl, rfl⟩ := h
            rfl
  | crossEntropyLoss x y val =>
    cases val with
    | some w =>
      simp only [forward, Option.some.injEq, Prod.mk.injEq] at h
      obtain ⟨rfl, rfl, rfl⟩ := h
      rfl
    | none =>
      simp only [forward] at h
      cases hfx : forward lg x with
      | none => rw [hfx] at h; exact absurd h (by simp)
      | some px =>
        obtain ⟨vx, x1, kx⟩ := px
        rw [hfx] at h
        cases hfy : forward lg y with
        | none => rw [hfy] at h; exact absurd h (by simp)
        | some py =>
          obtain ⟨vy, y1, ky⟩ := py
          rw [hfy] at h
          simp only [Option.bind_eq_bind, Option.some_bind] at h
          cases hw : ceForwardValue lg vx vy with
          | none => rw [hw] at h; exact absurd h (by simp)
          | some w =>
            rw [hw] at h
            simp only [Option.bind_eq_bind, Option.some_bind, Option.pure_def,
              Option.some.injEq, Prod.mk.injEq] at h
            obtain ⟨rfl, rfl, rfl⟩ := h
            rfl

/-- Witness for C4: a fresh Add node over two 1×1 Variables; the first
`Forward()` computes once, the repeated call hits the cache with count 0. -/
theorem forward_memoizes_witness :
    forward id (.add (varOf ⟨[1], 1, 1⟩) (varOf ⟨[2], 1, 1⟩) none) =
      some (⟨[1 + 2], 1, 1⟩,
        .add (varOf ⟨[1], 1, 1⟩) (varOf ⟨[2], 1, 1⟩) (some ⟨[1 + 2], 1, 1⟩), 1)
  ∧ forward id (.add (varOf ⟨[1], 1, 1⟩) (varOf ⟨[2], 1, 1⟩) (some ⟨[1 + 2], 1, 1⟩)) =
      some (⟨[1 + 2], 1, 1⟩,
        .add (varOf ⟨[1], 1, 1⟩) (varOf ⟨[2], 1, 1⟩) (some ⟨[1 + 2], 1, 1⟩), 0) :=
  ⟨rfl,
    forward_memoizes id
      (.add (varOf ⟨[1], 1, 1⟩) (varOf ⟨[2], 1, 1⟩) none) ⟨[1 + 2], 1, 1⟩
      (.add (varOf ⟨[1], 1, 1⟩) (varOf ⟨[2], 1, 1⟩) (some ⟨[1 + 2], 1, 1⟩)) 1 rfl⟩

/-- Claim C3: `VariableNode.Backward` accumulates — after `Backward` with
each gradient in `gs` (no intervening `Reset`), every entry of the Gradient
equals the initial entry plus the sum of the corresponding entries of `gs`;
in particular contributions from several graph instances sharing the leaf
add up. -/
theorem variable_backward_accumulates (v : VariableNode) (gs : List Matrix)
    (hg : WF v.Gradient)
    (hgr : v.Gradient.Rows = v.Value.Rows) (hgc : v.Gradient.Cols = v.Value.Cols)
    (hall : ∀ g ∈ gs, WF g ∧ g.Rows = v.Value.Rows ∧ g.Cols = v.Value.Cols) :
    ∃ w, v.backwardN gs = some w ∧ w.Value = v.Value ∧ WF w.Gradient ∧
      w.Gradient.Rows = v.Value.Rows ∧ w.Gradient.Cols = v.Value.Cols ∧
      ∀ j, w.Gradient.dAt j = v.Gradient.dAt j + ((gs.map fun g => g.dAt j).sum) := by
  induction gs generalizing v with
  | nil =>
    exact ⟨v, rfl, rfl, hg, hgr, hgc, fun j => by simp⟩
  | cons g rest ih =>
    obtain ⟨hWFg, hgr2, hgc2⟩ := hall g (List.mem_cons_self g rest)
    have hadd := Add_ok v.Gradient g hg hWFg (by rw [hgr, hgr2]) (by rw [hgc, hgc2])
    have hglen : g.Data.length = v.Gradient.Rows * v.Gradient.Cols := by
      rw [hWFg, hgr2, hgc2, ← hgr, ← hgc]
    have hG1 : ∀ j,
        (Matrix.mk ((List.range (v.Gradient.Rows * v.Gradient.Cols)).map
            (fun i => v.Gradient.dAt i + g.dAt i)) v.Gradient.Rows v.Gradient.Cols).dAt j
          = v.Gradient.dAt j + g.dAt j := by
      intro j
      rcases lt_or_ge j (v.Gradient.Rows * v.Gradient.Cols) with hj | hj
      · exact dAt_map_range _ _ _ _ hj
      · rw [dAt_map_range_ge _ _ _ _ hj, dAt_of_length_le v.Gradient (by rw [hg]; exact hj),
          dAt_of_length_le g (by rw [hglen]; exact hj)]
        norm_num
    obtain ⟨w, hN, hVal, hWF, hR, hC, hsum⟩ :=
      ih ⟨v.Value, ⟨(List.range (v.Gradient.Rows * v.Gradient.Cols)).map
            (fun i => v.Gradient.dAt i + g.dAt i), v.Gradient.Rows, v.Gradient.Cols⟩⟩
        (by simp [WF]) hgr hgc
        (fun g2 hg2 => hall g2 (List.mem_cons_of_mem _ hg2))
    refine ⟨w, ?_, hVal, hWF, hR, hC, fun j => ?_⟩
    · show (v.Backward g).bind _ = some w
      rw [VariableNode.Backward, hadd]
      exact hN
    · rw [hsum j]
      show _ + _ = _ + (List.map (fun g => g.dAt j) (g :: rest)).sum
      rw [List.map_cons, List.sum_cons, hG1 j, add_assoc]

/-- Witness for C3: a 1×1 Variable accumulating two gradients. -/
theorem variable_backward_accumulates_witness :
    (WF (⟨⟨[1], 1, 1⟩, ⟨[0], 1, 1⟩⟩ : VariableNode).Gradient
      ∧ (∀ g ∈ [(⟨[2], 1, 1⟩ : Matrix), ⟨[3], 1, 1⟩],
          WF g ∧ g.Rows = 1 ∧ g.Cols = 1))
  ∧ ∃ w, (⟨⟨[1], 1, 1⟩, ⟨[0], 1, 1⟩⟩ : VariableNode).backwardN
        [⟨[2], 1, 1⟩, ⟨[3], 1, 1⟩] = some w ∧
      w.Value = ⟨[1], 1, 1⟩ ∧ WF w.Gradient ∧
      w.Gradient.Rows = 1 ∧ w.Gradient.Cols = 1 ∧
      ∀ j, w.Gradient.dAt j =
        (⟨[0], 1, 1⟩ : Matrix).dAt j +
          (([(⟨[2], 1, 1⟩ : Matrix), ⟨[3], 1, 1⟩].map fun g => g.dAt j).sum) :=
  ⟨⟨by decide, by decide⟩,
    variable_backward_accumulates ⟨⟨[1], 1, 1⟩, ⟨[0], 1, 1⟩⟩
      [⟨[2], 1, 1⟩, ⟨[3], 1, 1⟩] (by decide) (by decide) (by decide) (by decide)⟩

theorem Trans_ok (m : Matrix) (hm : WF m) :
    m.Trans = some ⟨(List.range (m.Rows * m.Cols)).map
        (fun k => m.dAt ((k % m.Rows) * m.Cols + k / m.Rows)), m.Cols, m.Rows⟩ := by
  have hml : m.Data.length = m.Rows * m.Cols := hm
  have hidx : ∀ k, k < m.Rows * m.Cols →
      (k % m.Rows) * m.Cols + k / m.Rows < m.Rows * m.Cols := by
    intro k hk
    rcases Nat.eq_zero_or_pos m.Rows with h0 | hR
    · rw [h0] at hk; omega
    · have h1 : k % m.Rows < m.Rows := Nat.mod_lt _ hR
      have h2 : k / m.Rows < m.Cols :=
        (Nat.div_lt_iff_lt_mul hR).mpr (by rw [Nat.mul_comm]; exact hk)
      calc (k % m.Rows) * m.Cols + k / m.Rows
          < (k % m.Rows) * m.Cols + m.Cols := by omega
        _ = (k % m.Rows + 1) * m.Cols := by ring
        _ ≤ m.Rows * m.Cols := Nat.mul_le_mul_right _ (Nat.succ_le_of_lt h1)
  unfold Matrix.Trans
  rw [collect_map_range _ _ (fun k hk => by
    rw [dAt_data_getElem m (by rw [hml]; exact hidx k hk)]; rfl)]
  exact newMatrix_of_length (by simp [Nat.mul_comm])

/-- Claim C10: transposition maps the element at row `i`, column `j` to row
`j`, column `i` of a Cols×Rows result, and is an involution:
`m.Trans().Trans()` returns `m` itself. -/
theorem trans_involution (m : Matrix) (hm : WF m) :
    ∃ t, m.Trans = some t ∧ t.Rows = m.Cols ∧ t.Cols = m.Rows ∧ WF t ∧
      (∀ i j, i < m.Rows → j < m.Cols →
        t.dAt (j * m.Rows + i) = m.dAt (i * m.Cols + j)) ∧
      t.Trans = some m := by
  obtain ⟨d, R, C⟩ := m
  have hml : d.length = R * C := hm
  refine ⟨⟨(List.range (R * C)).map
      (fun k => Matrix.dAt ⟨d, R, C⟩ ((k % R) * C + k / R)), C, R⟩,
    Trans_ok ⟨d, R, C⟩ hm, rfl, rfl, by simp [WF, Nat.mul_comm], ?_, ?_⟩
  · intro i j hi hj
    have hi2 : i < R := hi
    have hj2 : j < C := hj
    have hR : 0 < R := by omega
    have hk : j * R + i < R * C := by
      calc j * R + i < j * R + R := by omega
        _ = (j + 1) * R := by ring
        _ ≤ C * R := Nat.mul_le_mul_right _ (Nat.succ_le_of_lt hj2)
        _ = R * C := Nat.mul_comm C R
    rw [dAt_map_range _ _ _ _ hk]
    have h1 : (j * R + i) % R = i := by
      rw [Nat.add_comm, Nat.add_mul_mod_self_right, Nat.mod_eq_of_lt hi2]
    have h2 : (j * R + i) / R = j := by
      rw [Nat.add_comm, Nat.add_mul_div_right _ _ hR, Nat.div_eq_of_lt hi2]
      omega
    rw [h1, h2]
  · rw [Trans_ok _ (by simp [WF, Nat.mul_comm])]
    refine congrArg some ?_
    refine congrArg (fun l => Matrix.mk l R C) ?_
    refine List.ext_getElem (by simp [hml, Nat.mul_comm]) ?_
    intro k hk1 hk2
    dsimp only
    have hkCR : k < C * R := by simpa using hk1
    have hC : 0 < C := by
      rcases Nat.eq_zero_or_pos C with h0 | h; · rw [h0] at hkCR; omega
      · exact h
    have hR : 0 < R := by
      rcases Nat.eq_zero_or_pos R with h0 | h; · rw [h0] at hkCR; omega
      · exact h
    have hdiv : k / C < R := (Nat.div_lt_iff_lt_mul hC).mpr (by
      rw [Nat.mul_comm]; exact hkCR)
    have hmod : k % C < C := Nat.mod_lt _ hC
    have hq : (k % C) * R + k / C < R * C := by
      calc (k % C) * R + k / C < (k % C) * R + R := by omega
        _ = (k % C + 1) * R := by ring
        _ ≤ C * R := Nat.mul_le_mul_right _ (Nat.succ_le_of_lt hmod)
        _ = R * C := Nat.mul_comm C R
    rw [List.getElem_map, List.getElem_range]
    rw [dAt_map_range _ _ _ _ hq]
    have h1 : ((k % C) * R + k / C) % R = k / C := by
      rw [Nat.add_comm, Nat.add_mul_mod_self_right, Nat.mod_eq_of_lt hdiv]
    have h2 : ((k % C) * R + k / C) / R = k % C := by
      rw [Nat.add_comm, Nat.add_mul_div_right _ _ hR, Nat.div_eq_of_lt hdiv]
      omega
    rw [h1, h2]
    have h3 : (k / C) * C + k % C = k := by
      rw [Nat.mul_comm (k / C) C]; exact Nat.div_add_mod k C
    rw [h3]
    have hkd : k < d.length := by rw [hml, Nat.mul_comm]; exact hkCR
    simp only [Matrix.dAt, List.getElem?_eq_getElem hkd, Option.getD_some]

/-- Witness for C10: the involution theorem applied to a 2×3 matrix. -/
theorem trans_involution_witness :
    WF ⟨[1, 2, 3, 4, 5, 6], 2, 3⟩
  ∧ ∃ t, Matrix.Trans ⟨[1, 2, 3, 4, 5, 6], 2, 3⟩ = some t ∧
      t.Rows = 3 ∧ t.Cols = 2 ∧ WF t ∧
      (∀ i j, i < 2 → j < 3 →
        t.dAt (j * 2 + i) = Matrix.dAt ⟨[1, 2, 3, 4, 5, 6], 2, 3⟩ (i * 3 + j)) ∧
      t.Trans = some ⟨[1, 2, 3, 4, 5, 6], 2, 3⟩ :=
  ⟨by decide, trans_involution ⟨[1, 2, 3, 4, 5, 6], 2, 3⟩ (by decide)⟩

theorem isSome_bind_of {A B : Type} {o : Option A} {f : A → Option B} (a : A)
    (ho : o = some a) (hf : ((f a).isSome) = true) : ((o >>= f).isSome) = true := by
  rw [ho]
  simpa using hf

theorem backward_varOf_eq (lg : ℚ → ℚ) (m g : Matrix) (hg : WF g)
    (hr : g.Rows = m.Rows) (hc : g.Cols = m.Cols) :
    backward lg (varOf m) (some g) =
      some (.variableNode ⟨m, ⟨(List.range (m.Rows * m.Cols)).map
        (fun i => (NewConstMatrix m.Rows m.Cols 0).dAt i + g.dAt i),
        m.Rows, m.Cols⟩⟩) := by
  show ((VariableNode.Backward ⟨m, NewConstMatrix m.Rows m.Cols 0⟩ g).map
    Node.variableNode) = _
  rw [VariableNode.Backward]
  dsimp only
  rw [Add_ok (NewConstMatrix m.Rows m.Cols 0) g (by simp [WF, NewConstMatrix])
    hg hr.symm hc.symm]
  rfl

/-- Claim C6: on a loss node (MSELoss or CrossEntropyLoss), `Backward` with
a non-nil upstream gradient is a fatal error raised before any child
`Backward` runs or any gradient propagates (the nil check is the first
statement of both implementations, for arbitrary children); with a nil
gradient it proceeds normally (here: over two equal-shaped Variable
leaves). -/
theorem loss_backward_nil_guard (lg : ℚ → ℚ) (x y : Node) (g : Matrix)
    (c : Option Matrix) (vx vy : Matrix)
    (hwx : WF vx) (hwy : WF vy) (hr : vx.Rows = vy.Rows) (hc : vx.Cols = vy.Cols) :
    backward lg (.mseLoss x y c) (some g) = none
  ∧ backward lg (.crossEntropyLoss x y c) (some g) = none
  ∧ (backward lg (.mseLoss (varOf vx) (varOf vy) c) none).isSome = true
  ∧ (backward lg (.crossEntropyLoss (varOf vx) (varOf vy) c) none).isSome = true := by
  have hxl : vx.Data.length = vx.Rows * vx.Cols := hwx
  have hyl : vy.Data.length = vx.Rows * vx.Cols := by rw [hwy, ← hr, ← hc]
  refine ⟨rfl, rfl, ?_, ?_⟩
  · -- MSELoss with nil gradient: the full chain succeeds
    have hd := collect_map_range
      (fun i => do
        let a ← vx.Data[i]?
        let b ← vy.Data[i]?
        pure ((a - b) / (vx.Cols : ℚ)))
      (vx.Rows * vx.Cols)
      (fun i hi => by
        dsimp only
        rw [dAt_data_getElem vx (by omega), dAt_data_getElem vy (by omega)]; rfl)
    simp only [backward]
    refine isSome_bind_of vx rfl ?_
    refine isSome_bind_of vy rfl ?_
    refine isSome_bind_of _ hd ?_
    refine isSome_bind_of _ (newMatrix_of_length (by simp)) ?_
    refine isSome_bind_of _ (Sub_ok (NewConstMatrix vx.Rows vx.Cols 0) _
      (by simp [WF, NewConstMatrix]) (by simp [WF]) rfl rfl) ?_
    refine isSome_bind_of _ (backward_varOf_eq lg vx _ (by simp [WF]) rfl rfl) ?_
    refine isSome_bind_of _ (backward_varOf_eq lg vy _ (by simp [WF, NewConstMatrix])
      hr hc) ?_
    rfl
  · -- CrossEntropyLoss with nil gradient
    have hd := collect_map_range
      (fun i => do
        let b ← vy.Data[i]?
        let a ← vx.Data[i]?
        pure (if b = 1 then (if a = 0 then -1 / (0.001 : ℚ) else -1 / a)
              else (if 1 - a = 0 then 1 / (0.001 : ℚ) else 1 / (1 - a))))
      (vx.Rows * vx.Cols)
      (fun i hi => by
        dsimp only
        rw [dAt_data_getElem vx (by omega), dAt_data_getElem vy (by omega)]
        rfl)
    simp only [backward]
    refine isSome_bind_of vx rfl ?_
    refine isSome_bind_of vy rfl ?_
    refine isSome_bind_of _ hd ?_
    refine isSome_bind_of _ (newMatrix_of_length (by simp)) ?_
    refine isSome_bind_of _ (backward_varOf_eq lg vx _ (by simp [WF]) rfl rfl) ?_
    refine isSome_bind_of _ (backward_varOf_eq lg vy (NewConstMatrix vy.Rows vy.Cols 0)
      (by simp [WF, NewConstMatrix]) rfl rfl) ?_
    rfl

theorem sum_map_div (f : ℕ → ℚ) (n : ℕ) (c : ℚ) :
    ((List.range n).map fun i => f i / c).sum = ((List.range n).map f).sum / c := by
  induction n with
  | zero => simp
  | succ k ih =>
    rw [List.range_succ, List.map_append, List.sum_append,
      List.map_append, List.sum_append, ih]
    simp [add_div]

theorem sum_range_flatten (t : ℕ → ℚ) (R C : ℕ) :
    ((List.range R).map fun i => ((List.range C).map fun j => t (i * C + j)).sum).sum
      = ((List.range (R * C)).map t).sum := by
  induction R with
  | zero => simp
  | succ r ih =>
    rw [List.range_succ, List.map_append, List.sum_append, ih]
    rw [show (r + 1) * C = r * C + C from by ring, List.range_add,
      List.map_append, List.sum_append]
    simp only [List.map_map, List.map_cons, List.map_nil, List.sum_cons,
      List.sum_nil, add_zero]
    rfl

theorem collect_getD_sum (f : ℕ → Option ℚ) (g : ℕ → ℚ) (n : ℕ)
    (h : ∀ i < n, f i = some (g i)) :
    ((List.range n).map fun i => (f i).getD 0) = (List.range n).map g :=
  List.map_congr_left fun i hi => by rw [h i (List.mem_range.mp hi)]; rfl

theorem mseForwardValue_ok (x y : Matrix) (hwx : WF x) (hwy : WF y)
    (hr : x.Rows = y.Rows) (hc : x.Cols = y.Cols) :
    mseForwardValue x y = some (mseMean x y) := by
  have hxl : x.Data.length = x.Rows * x.Cols := hwx
  have hyl : y.Data.length = x.Rows * x.Cols := by rw [hwy, ← hr, ← hc]
  have hidx : ∀ i, i < x.Rows → ∀ j, j < x.Cols → i * x.Cols + j < x.Rows * x.Cols := by
    intro i hi j hj
    calc i * x.Cols + j < i * x.Cols + x.Cols := by omega
      _ = (i + 1) * x.Cols := by ring
      _ ≤ x.Rows * x.Cols := Nat.mul_le_mul_right _ (Nat.succ_le_of_lt hi)
  have hinner : ∀ i, i < x.Rows →
      collect ((List.range x.Cols).map fun j => do
        let a ← x.Data[i * x.Cols + j]?
        let b ← y.Data[i * x.Cols + j]?
        pure ((a - b) ^ 2)) =
      some ((List.range x.Cols).map fun j =>
        (x.dAt (i * x.Cols + j) - y.dAt (i * x.Cols + j)) ^ 2) := by
    intro i hi
    rw [collect_map_range _ _ (fun j hj => by
      rw [dAt_data_getElem x (by rw [hxl]; exact hidx i hi j hj),
        dAt_data_getElem y (by rw [hyl]; exact hidx i hi j hj)]
      rfl)]
    refine congrArg some (List.map_congr_left fun j hj => ?_)
    have hj2 := List.mem_range.mp hj
    rw [dAt_data_getElem x (by rw [hxl]; exact hidx i hi j hj2),
      dAt_data_getElem y (by rw [hyl]; exact hidx i hi j hj2)]
    rfl
  unfold mseForwardValue
  rw [if_neg (by simp [hr, hc])]
  rw [collect_map_range _ _ (fun i hi => by
    rw [hinner i hi]
    rfl)]
  rw [collect_getD_sum _ (fun i => ((List.range x.Cols).map fun j =>
      (x.dAt (i * x.Cols + j) - y.dAt (i * x.Cols + j)) ^ 2).sum / (x.Cols : ℚ)) _
    (fun i hi => by rw [hinner i hi]; rfl)]
  simp only [Option.bind_eq_bind, Option.some_bind]
  rw [sum_map_div, sum_range_flatten (fun k => (x.dAt k - y.dAt k) ^ 2) x.Rows x.Cols]
  rw [div_div, mul_comm ((x.Cols : ℚ)) ((x.Rows : ℚ)), ← one_div_mul_eq_div]
  exact newMatrix_of_length rfl

/-- Claim C7: on equal-shaped `x` (prediction) and `y` (target), the MSELoss
node's `Forward()` returns the 1×1 matrix `(1/(rows·cols))·Σ (x−y)²`;
mismatched shapes are a fatal error. -/
theorem mseloss_forward_mean (lg : ℚ → ℚ) (x y : Matrix)
    (hwx : WF x) (hwy : WF y) :
    (x.Rows = y.Rows → x.Cols = y.Cols →
      forward lg (.mseLoss (varOf x) (varOf y) none) =
        some (mseMean x y, .mseLoss (varOf x) (varOf y) (some (mseMean x y)), 1))
  ∧ ((x.Rows ≠ y.Rows ∨ x.Cols ≠ y.Cols) →
      forward lg (.mseLoss (varOf x) (varOf y) none) = none) := by
  constructor
  · intro hr hc
    simp only [forward]
    simp only [Option.bind_eq_bind, Option.some_bind]
    rw [mseForwardValue_ok x y hwx hwy hr hc]
    simp only [Option.some_bind]
    rfl
  · intro hne
    simp only [forward]
    simp only [Option.bind_eq_bind, Option.some_bind]
    rw [show mseForwardValue x y = none from by
      unfold mseForwardValue; rw [if_pos hne]]
    rfl

/-- Witness for C7: MSELoss over a 1×2 prediction/target pair, and a fatal
shape mismatch. -/
theorem mseloss_forward_mean_witness :
    forward id (.mseLoss (varOf ⟨[1, 2], 1, 2⟩) (varOf ⟨[0, 0], 1, 2⟩) none) =
      some (mseMean ⟨[1, 2], 1, 2⟩ ⟨[0, 0], 1, 2⟩,
        .mseLoss (varOf ⟨[1, 2], 1, 2⟩) (varOf ⟨[0, 0], 1, 2⟩)
          (some (mseMean ⟨[1, 2], 1, 2⟩ ⟨[0, 0], 1, 2⟩)), 1)
  ∧ forward id (.mseLoss (varOf ⟨[1, 2], 1, 2⟩) (varOf ⟨[1, 2, 3, 4], 2, 2⟩) none) =
      none :=
  ⟨(mseloss_forward_mean id ⟨[1, 2], 1, 2⟩ ⟨[0, 0], 1, 2⟩
      (by decide) (by decide)).1 rfl rfl,
   (mseloss_forward_mean id ⟨[1, 2], 1, 2⟩ ⟨[1, 2, 3, 4], 2, 2⟩
      (by decide) (by decide)).2 (by decide)⟩

theorem Scale_ok2 (m : Matrix) (rate : ℚ) (hm : WF m) :
    ∃ r, m.Scale rate = some r ∧ r.Rows = m.Rows ∧ r.Cols = m.Cols ∧ WF r ∧
      ∀ j, r.dAt j = m.dAt j * rate := by
  refine ⟨_, Scale_ok m rate hm, rfl, rfl, by simp [WF], fun j => ?_⟩
  rcases lt_or_ge j (m.Rows * m.Cols) with hj | hj
  · exact dAt_map_range _ _ _ _ hj
  · rw [dAt_map_range_ge _ _ _ _ hj, dAt_of_length_le m (by rw [hm]; exact hj),
      zero_mul]

theorem Add_ok2 (m o : Matrix) (hm : WF m) (ho : WF o)
    (hr : m.Rows = o.Rows) (hc : m.Cols = o.Cols) :
    ∃ r, m.Add o = some r ∧ r.Rows = m.Rows ∧ r.Cols = m.Cols ∧ WF r ∧
      ∀ j, r.dAt j = m.dAt j + o.dAt j := by
  refine ⟨_, Add_ok m o hm ho hr hc, rfl, rfl, by simp [WF], fun j => ?_⟩
  rcases lt_or_ge j (m.Rows * m.Cols) with hj | hj
  · exact dAt_map_range _ _ _ _ hj
  · rw [dAt_map_range_ge _ _ _ _ hj, dAt_of_length_le m (by rw [hm]; exact hj),
      dAt_of_length_le o (by rw [ho, ← hr, ← hc]; exact hj), add_zero]

theorem Sub_ok2 (m o : Matrix) (hm : WF m) (ho : WF o)
    (hr : m.Rows = o.Rows) (hc : m.Cols = o.Cols) :
    ∃ r, m.Sub o = some r ∧ r.Rows = m.Rows ∧ r.Cols = m.Cols ∧ WF r ∧
      ∀ j, r.dAt j = m.dAt j - o.dAt j := by
  refine ⟨_, Sub_ok m o hm ho hr hc, rfl, rfl, by simp [WF], fun j => ?_⟩
  rcases lt_or_ge j (m.Rows * m.Cols) with hj | hj
  · exact dAt_map_range _ _ _ _ hj
  · rw [dAt_map_range_ge _ _ _ _ hj, dAt_of_length_le m (by rw [hm]; exact hj),
      dAt_of_length_le o (by rw [ho, ← hr, ← hc]; exact hj), sub_zero]

theorem sgdStepOne_ok (lr mom : ℚ) (b : ℕ) (p : VariableNode) (vel : Matrix)
    (h1 : WF p.Value) (h2 : WF p.Gradient) (h3 : WF vel)
    (h4 : p.Gradient.Rows = p.Value.Rows) (h5 : p.Gradient.Cols = p.Value.Cols)
    (h6 : vel.Rows = p.Value.Rows) (h7 : vel.Cols = p.Value.Cols) :
    ∃ p2 v2, sgdStepOne lr mom b p vel = some (p2, v2) ∧
      p2.Gradient = p.Gradient ∧
      (∀ j, v2.dAt j = mom * vel.dAt j + (1 - mom) * (p.Gradient.dAt j / (b : ℚ))) ∧
      (∀ j, p2.Value.dAt j = p.Value.dAt j - lr * v2.dAt j) := by
  obtain ⟨g1, hg1, hg1r, hg1c, hg1w, hg1d⟩ := Scale_ok2 p.Gradient (1 / (b : ℚ)) h2
  obtain ⟨s1, hs1, hs1r, hs1c, hs1w, hs1d⟩ := Scale_ok2 vel mom h3
  obtain ⟨g2, hg2, hg2r, hg2c, hg2w, hg2d⟩ := Scale_ok2 g1 (1 - mom) hg1w
  obtain ⟨v2, hv2, hv2r, hv2c, hv2w, hv2d⟩ := Add_ok2 s1 g2 hs1w hg2w
    (by rw [hs1r, hg2r, hg1r, h6, h4]) (by rw [hs1c, hg2c, hg1c, h7, h5])
  obtain ⟨lv, hlv, hlvr, hlvc, hlvw, hlvd⟩ := Scale_ok2 v2 lr hv2w
  obtain ⟨nv, hnv, hnvr, hnvc, hnvw, hnvd⟩ := Sub_ok2 p.Value lv h1 hlvw
    (by rw [hlvr, hv2r, hs1r, h6]) (by rw [hlvc, hv2c, hs1c, h7])
  refine ⟨⟨nv, p.Gradient⟩, v2, ?_, rfl, fun j => ?_, fun j => ?_⟩
  · unfold sgdStepOne
    rw [hg1]
    simp only [Option.bind_eq_bind, Option.some_bind]
    rw [hs1]
    simp only [Option.some_bind]
    rw [hg2]
    simp only [Option.some_bind]
    rw [hv2]
    simp only [Option.some_bind]
    rw [hlv]
    simp only [Option.some_bind]
    rw [hnv]
    simp only [Option.some_bind]
    rfl
  · rw [hv2d j, hs1d j, hg2d j, hg1d j]
    ring
  · show nv.dAt j = p.Value.dAt j - lr * v2.dAt j
    rw [hnvd j, hlvd j]
    ring

theorem getD_map_lt {A B : Type} (f : A → B) (l : List A) (i : ℕ)
    (hi : i < l.length) (d : B) (d0 : A) :
    (l.map f).getD i d = f (l.getD i d0) := by
  rw [List.getD_eq_getElem?_getD, List.getElem?_eq_getElem (by simpa using hi),
    List.getElem_map, List.getD_eq_getElem?_getD, List.getElem?_eq_getElem hi]
  rfl

theorem getD_append_lt {A : Type} (l l2 : List A) (i : ℕ) (hi : i < l.length)
    (d : A) : (l ++ l2).getD i d = l.getD i d := by
  rw [List.getD_eq_getElem?_getD, List.getElem?_append, if_pos hi,
    ← List.getD_eq_getElem?_getD]

theorem sgdStepList_ok (lr mom : ℚ) (b : ℕ) :
    ∀ (ps : List VariableNode) (vels : List Matrix),
      vels.length = ps.length →
      (∀ pv ∈ ps.zip vels, WF pv.1.Value ∧ WF pv.1.Gradient ∧ WF pv.2 ∧
        pv.1.Gradient.Rows = pv.1.Value.Rows ∧ pv.1.Gradient.Cols = pv.1.Value.Cols ∧
        pv.2.Rows = pv.1.Value.Rows ∧ pv.2.Cols = pv.1.Value.Cols) →
      ∃ pairs, sgdStepList lr mom b ps vels = some pairs ∧
        pairs.length = ps.length ∧
        ∀ i, i < ps.length →
          (pairs.getD i (dummyV, dummyM)).1.Gradient = (ps.getD i dummyV).Gradient ∧
          (∀ j, (pairs.getD i (dummyV, dummyM)).2.dAt j =
            mom * (vels.getD i dummyM).dAt j +
              (1 - mom) * ((ps.getD i dummyV).Gradient.dAt j / (b : ℚ))) ∧
          (∀ j, (pairs.getD i (dummyV, dummyM)).1.Value.dAt j =
            (ps.getD i dummyV).Value.dAt j -
              lr * (pairs.getD i (dummyV, dummyM)).2.dAt j) := by
  intro ps
  induction ps with
  | nil =>
    intro vels hlen hcond
    exact ⟨[], rfl, rfl, fun i hi => absurd hi (by simp)⟩
  | cons p ps ih =>
    intro vels hlen hcond
    cases vels with
    | nil => simp at hlen
    | cons vel vels =>
      obtain ⟨h1, h2, h3, h4, h5, h6, h7⟩ := hcond (p, vel)
        (by rw [List.zip_cons_cons]; exact List.mem_cons_self _ _)
      obtain ⟨p2, v2, hstep, hgrad, hvel, hval⟩ :=
        sgdStepOne_ok lr mom b p vel h1 h2 h3 h4 h5 h6 h7
      obtain ⟨pairs, hlist, hplen, hprop⟩ := ih vels (by simpa using hlen)
        (fun pv hpv => hcond pv
          (by rw [List.zip_cons_cons]; exact List.mem_cons_of_mem _ hpv))
      refine ⟨(p2, v2) :: pairs, ?_, by simp [hplen], ?_⟩
      · simp only [sgdStepList]
        rw [hstep]
        simp only [Option.bind_eq_bind, Option.some_bind]
        rw [hlist]
        simp only [Option.some_bind]
        rfl
      · intro i hi
        cases i with
        | zero => exact ⟨hgrad, hvel, hval⟩
        | succ i2 => exact hprop i2 (by simpa using hi)

/-- Claim C8: `SGDOptimizer.Step(batchSize)` (batchSize > 0) updates each
parameter, in list order, by exactly
`velocity = momentum·velocity + (1−momentum)·(Gradient/batchSize)` and
`Value = Value − lr·velocity`, and leaves every parameter's accumulated
Gradient matrix unchanged. -/
theorem sgd_step_update (opt : SGDOptimizer) (batchSize : ℕ) (hb : 0 < batchSize)
    (hlen : opt.Velocity.length = opt.Parameters.length)
    (hcond : ∀ pv ∈ opt.Parameters.zip opt.Velocity,
      WF pv.1.Value ∧ WF pv.1.Gradient ∧ WF pv.2 ∧
      pv.1.Gradient.Rows = pv.1.Value.Rows ∧ pv.1.Gradient.Cols = pv.1.Value.Cols ∧
      pv.2.Rows = pv.1.Value.Rows ∧ pv.2.Cols = pv.1.Value.Cols) :
    ∃ opt2, opt.Step batchSize = some opt2 ∧
      opt2.LearningRate = opt.LearningRate ∧ opt2.Momentum = opt.Momentum ∧
      opt2.Parameters.length = opt.Parameters.length ∧
      opt2.Velocity.length = opt.Velocity.length ∧
      ∀ i, i < opt.Parameters.length →
        (opt2.Parameters.getD i dummyV).Gradient =
          (opt.Parameters.getD i dummyV).Gradient ∧
        (∀ j, (opt2.Velocity.getD i dummyM).dAt j =
          opt.Momentum * (opt.Velocity.getD i dummyM).dAt j +
            (1 - opt.Momentum) *
              ((opt.Parameters.getD i dummyV).Gradient.dAt j / (batchSize : ℚ))) ∧
        (∀ j, (opt2.Parameters.getD i dummyV).Value.dAt j =
          (opt.Parameters.getD i dummyV).Value.dAt j -
            opt.LearningRate * (opt2.Velocity.getD i dummyM).dAt j) := by
  obtain ⟨pairs, hlist, hplen, hprop⟩ :=
    sgdStepList_ok opt.LearningRate opt.Momentum batchSize
      opt.Parameters opt.Velocity hlen hcond
  refine ⟨⟨opt.LearningRate, opt.Momentum,
    pairs.map Prod.snd ++ opt.Velocity.drop opt.Parameters.length,
    pairs.map Prod.fst⟩, ?_, rfl, rfl, by simp [hplen], ?_, ?_⟩
  · unfold SGDOptimizer.Step
    rw [hlist]
    rfl
  · simp [hplen, hlen]
  · intro i hi
    have hip : i < pairs.length := by rw [hplen]; exact hi
    have hfst : ((pairs.map Prod.fst).getD i dummyV) =
        (pairs.getD i (dummyV, dummyM)).1 :=
      getD_map_lt Prod.fst pairs i hip dummyV (dummyV, dummyM)
    have hsnd : ((pairs.map Prod.snd ++
        opt.Velocity.drop opt.Parameters.length).getD i dummyM) =
        (pairs.getD i (dummyV, dummyM)).2 := by
      rw [getD_append_lt _ _ i (by simpa using hip)]
      exact getD_map_lt Prod.snd pairs i hip dummyM (dummyV, dummyM)
    obtain ⟨ha, hbv, hcv⟩ := hprop i hi
    exact ⟨by rw [hfst, ha], fun j => by rw [hsnd]; exact hbv j,
      fun j => by rw [hfst, hsnd]; exact hcv j⟩

/-- Witness for C8: one 1×1 parameter with gradient 4, zero velocity,
learning rate 1/2, momentum 1/4, batch size 2. -/
theorem sgd_step_update_witness :
    ∃ opt2, (SGDOptimizer.mk (1/2) (1/4) [⟨[0], 1, 1⟩]
        [⟨⟨[2], 1, 1⟩, ⟨[4], 1, 1⟩⟩]).Step 2 = some opt2 ∧
      opt2.LearningRate = (1 : ℚ)/2 ∧ opt2.Momentum = (1 : ℚ)/4 ∧
      opt2.Parameters.length = 1 ∧ opt2.Velocity.length = 1 ∧
      ∀ i, i < 1 →
        (opt2.Parameters.getD i dummyV).Gradient =
          (([⟨⟨[2], 1, 1⟩, ⟨[4], 1, 1⟩⟩] : List VariableNode).getD i dummyV).Gradient ∧
        (∀ j, (opt2.Velocity.getD i dummyM).dAt j =
          (1 : ℚ)/4 * (([⟨[0], 1, 1⟩] : List Matrix).getD i dummyM).dAt j +
            (1 - (1 : ℚ)/4) *
              ((([⟨⟨[2], 1, 1⟩, ⟨[4], 1, 1⟩⟩] : List VariableNode).getD
                  i dummyV).Gradient.dAt j / ((2 : ℕ) : ℚ))) ∧
        (∀ j, (opt2.Parameters.getD i dummyV).Value.dAt j =
          (([⟨⟨[2], 1, 1⟩, ⟨[4], 1, 1⟩⟩] : List VariableNode).getD
              i dummyV).Value.dAt j -
            (1 : ℚ)/2 * (opt2.Velocity.getD i dummyM).dAt j) :=
  sgd_step_update ⟨1/2, 1/4, [⟨[0], 1, 1⟩], [⟨⟨[2], 1, 1⟩, ⟨[4], 1, 1⟩⟩]⟩ 2
    (by decide) (by decide) (by decide)

/-- Witness for C6: the guard theorem applied to two 1×2 Variables. -/
theorem loss_backward_nil_guard_witness :
    backward id (.mseLoss (varOf ⟨[1, 2], 1, 2⟩) (varOf ⟨[3, 4], 1, 2⟩) none)
      (some ⟨[1, 1], 1, 2⟩) = none
  ∧ backward id (.crossEntropyLoss (varOf ⟨[1, 2], 1, 2⟩) (varOf ⟨[3, 4], 1, 2⟩) none)
      (some ⟨[1, 1], 1, 2⟩) = none
  ∧ (backward id (.mseLoss (varOf ⟨[1, 2], 1, 2⟩) (varOf ⟨[3, 4], 1, 2⟩) none)
      none).isSome = true
  ∧ (backward id (.crossEntropyLoss (varOf ⟨[1, 2], 1, 2⟩) (varOf ⟨[3, 4], 1, 2⟩) none)
      none).isSome = true :=
  loss_backward_nil_guard id (varOf ⟨[1, 2], 1, 2⟩) (varOf ⟨[3, 4], 1, 2⟩)
    ⟨[1, 1], 1, 2⟩ none ⟨[1, 2], 1, 2⟩ ⟨[3, 4], 1, 2⟩
    (by decide) (by decide) (by decide) (by decide)

/-- Witness for C9: the invariant theorem applied at concrete inputs. -/
theorem matrix_ops_preserve_invariant_witness :
    WF ⟨[1, 2], 1, 2⟩ ∧ NewMatrix 1 2 [1] = none :=
  ⟨matrix_ops_preserve_invariant.1 1 2 [1, 2] ⟨[1, 2], 1, 2⟩ rfl,
   matrix_ops_preserve_invariant.2.1 1 2 [1] (by decide)⟩

end Goraph
